import Mathlib

/-!
Verification of the metadata-forensic document scanner (`src/server.ts`).

The development shallowly embeds the core logic of the server:
  * `calculateEntropy`   — Shannon entropy helper (server.ts:30-44),
  * `b64Matches` et al.  — the base64-block scanner `findBase64Blocks`
                           (server.ts:47-64), modelling the JS regex
                           `(?:[A-Za-z0-9+/]{4}){10,}(?:[A-Za-z0-9+/]{2}==|[A-Za-z0-9+/]{3}=)?`
                           with greedy, non-overlapping, left-to-right `exec` semantics,
  * `analyzeDocx`        — the DOCX ZIP walk (server.ts:67-167),
  * `analyzePdf`         — the PDF raw-byte scan (server.ts:170-248),
  * `fallbackVerdict`    — the deterministic fallback risk scorer (server.ts:330-346),
  * `resolveVerdict`     — the oracle-failure handling of `/api/analyze`
                           (server.ts:300-347).

JavaScript numbers are modelled as exact rationals (`ℚ`), entropies as real
numbers (`ℝ`); strings are `String`/`List Char`.
-/

namespace MetadataForensic

/-! ### Character classes and run lengths -/

/-- Membership in the regex character class `[A-Za-z0-9+/]` (server.ts:48). -/
def isB64Char (c : Char) : Bool :=
  ('A' ≤ c && c ≤ 'Z') || ('a' ≤ c && c ≤ 'z') || ('0' ≤ c && c ≤ '9') || c = '+' || c = '/'

/-- Length of the maximal leading run of base64-alphabet characters. -/
def runLen : List Char → ℕ
  | [] => 0
  | c :: cs => if isB64Char c then runLen cs + 1 else 0

/-! ### The base64 block scanner (`findBase64Blocks`, server.ts:47-64)

A match of the regex at the start of `l` consumes the greedy maximum of
complete groups of four alphabet characters, then the optional padding
alternative `[A-Za-z0-9+/]{2}==` or `[A-Za-z0-9+/]{3}=` if it fits. -/

/-- Number of characters consumed by the optional padding group when the
regex matches at the head of `l` (0 or 4). -/
def padLen (l : List Char) : ℕ :=
  let r := runLen l
  let k := r / 4
  if r % 4 = 2 then
    if l[4 * k + 2]? = some '=' ∧ l[4 * k + 3]? = some '=' then 4 else 0
  else if r % 4 = 3 then
    if l[4 * k + 3]? = some '=' then 4 else 0
  else 0

/-- Total length of the regex match at the head of `l` (meaningful when
`40 ≤ runLen l`, i.e. at least ten groups of four). -/
def b64MatchLen (l : List Char) : ℕ := 4 * (runLen l / 4) + padLen l

/-- All matches produced by repeated `base64Regex.exec` over the text:
greedy, non-overlapping, left-to-right (server.ts:54-61). -/
def b64Matches : List Char → List (List Char)
  | [] => []
  | c :: cs =>
    if h : 40 ≤ runLen (c :: cs) then
      (c :: cs).take (b64MatchLen (c :: cs)) :: b64Matches ((c :: cs).drop (b64MatchLen (c :: cs)))
    else
      b64Matches cs
termination_by l => l.length
decreasing_by
  · have h10 : (40 : ℕ) / 4 ≤ runLen (c :: cs) / 4 := Nat.div_le_div_right h
    simp only [List.length_drop, List.length_cons, b64MatchLen]
    omega
  · simp

/-- `count` returned by `findBase64Blocks` (server.ts:55). -/
def findBase64BlocksCount (s : List Char) : ℕ := (b64Matches s).length

/-- `size` returned by `findBase64Blocks` (server.ts:56). -/
def findBase64BlocksSize (s : List Char) : ℕ := ((b64Matches s).map List.length).sum

/-! ### Spec-side description of the scanner, for claim C4.

Modelled from the spec's words: "find all maximal runs matching a
base64-alphabet pattern of length ≥ 40 characters". -/

/-- Lengths of the maximal runs of base64-alphabet characters in `s`
(spec-side definition, used to compare with the scanner). -/
def maximalRunLengths : List Char → List ℕ
  | [] => []
  | c :: cs =>
    if isB64Char c then
      (runLen cs + 1) :: maximalRunLengths (cs.drop (runLen cs))
    else
      maximalRunLengths cs
termination_by l => l.length
decreasing_by
  · simp only [List.length_drop, List.length_cons]
    omega
  · simp

/-- Number of maximal base64-alphabet runs of length at least 40
(spec-side definition). -/
def qualifyingRunCount (s : List Char) : ℕ :=
  ((maximalRunLengths s).filter (fun r => decide (40 ≤ r))).length

/-! ### Entropy (`calculateEntropy`, server.ts:30-44) -/

/-- Shannon entropy in bits per symbol: frequency table over the observed
characters, then `-Σ p·log2 p` (server.ts:30-44). -/
noncomputable def calculateEntropy (s : List Char) : ℝ :=
  if s.length = 0 then 0
  else
    -∑ c ∈ s.toFinset,
      ((s.count c : ℝ) / s.length) * Real.logb 2 ((s.count c : ℝ) / s.length)

/-- Running maximum of entropies, starting from 0, as accumulated by the
`maxEntropy` variable in `findBase64Blocks` (server.ts:52,57-60). -/
noncomputable def maxEntropyList (ms : List (List Char)) : ℝ :=
  ms.foldl (fun a m => max a (calculateEntropy m)) 0

/-- `maxEntropy` returned by `findBase64Blocks` (server.ts:57-60). -/
noncomputable def findBase64BlocksMaxEntropy (s : List Char) : ℝ :=
  maxEntropyList (b64Matches s)

/-! ### Literal-pattern counting helpers (PDF raw-byte scan and DOCX regexes) -/

/-- Number of non-overlapping, left-to-right occurrences of the literal
`lit` in a text, as counted by `text.match(/lit/g)`. -/
def countLit (lit : List Char) : List Char → ℕ
  | [] => 0
  | c :: cs =>
    if h : lit ≠ [] ∧ lit.isPrefixOf (c :: cs) then
      1 + countLit lit ((c :: cs).drop lit.length)
    else
      countLit lit cs
termination_by l => l.length
decreasing_by
  · simp only [List.length_drop, List.length_cons]
    have : lit.length ≠ 0 := fun hl => h.1 (List.length_eq_zero.mp hl)
    omega
  · simp

/-- Occurrences of `/\/EmbeddedFiles|\/Names/g` in the raw PDF bytes
(server.ts:205): leftmost, non-overlapping, first alternative preferred. -/
def countEmbedMarkers : List Char → ℕ
  | [] => 0
  | c :: cs =>
    if ("/EmbeddedFiles".data).isPrefixOf (c :: cs) then
      1 + countEmbedMarkers ((c :: cs).drop 14)
    else if ("/Names".data).isPrefixOf (c :: cs) then
      1 + countEmbedMarkers ((c :: cs).drop 6)
    else
      countEmbedMarkers cs
termination_by l => l.length
decreasing_by
  · simp only [List.length_drop, List.length_cons]; omega
  · simp only [List.length_drop, List.length_cons]; omega
  · simp

/-- Occurrences of `/<[^>]+>/g` (XML element tags) counted over metadata
parts (server.ts:134): a `<`, at least one non-`>` character, then `>`. -/
def countTags : List Char → ℕ
  | [] => 0
  | c :: cs =>
    if c = '<' ∧ 1 ≤ (cs.takeWhile (fun d => decide (d ≠ '>'))).length ∧
        cs.dropWhile (fun d => decide (d ≠ '>')) ≠ [] then
      1 + countTags (cs.dropWhile (fun d => decide (d ≠ '>'))).tail
    else
      countTags cs
termination_by l => l.length
decreasing_by
  · have hle : (cs.dropWhile (fun d => decide (d ≠ '>'))).length ≤ cs.length :=
      (List.dropWhile_sublist (l := cs) (p := fun d => decide (d ≠ '>'))).length_le
    have ht : (cs.dropWhile (fun d => decide (d ≠ '>'))).tail.length
        ≤ (cs.dropWhile (fun d => decide (d ≠ '>'))).length := by
      cases cs.dropWhile (fun d => decide (d ≠ '>')) <;> simp
    simp only [List.length_cons]
    omega
  · simp

/-- `content.includes(sub)` — substring containment. -/
def containsSub (sub : List Char) : List Char → Bool
  | [] => sub.isEmpty
  | c :: cs => sub.isPrefixOf (c :: cs) || containsSub sub cs

/-! ### Lazy three-literal regex (`lit1 .*? lit2 (.*?) lit3`) used for the
hidden-text and white-text scans (server.ts:112,118).  JavaScript `.`
matches any character except a line terminator. -/

/-- Characters matched by `.` in a JS regex (no `s` flag). -/
def isDotChar (c : Char) : Bool :=
  c ≠ '\n' && c ≠ '\r' && c.toNat ≠ 0x2028 && c.toNat ≠ 0x2029

/-- Lazy `.*?lit`: the least number of leading `.`-characters that can be
skipped so that `lit` matches next; returns that count. -/
def lazySeek (lit : List Char) : List Char → Option ℕ
  | [] => if lit.isPrefixOf ([] : List Char) then some 0 else none
  | c :: cs =>
    if lit.isPrefixOf (c :: cs) then some 0
    else if isDotChar c then (lazySeek lit cs).map (fun n => n + 1)
    else none

/-- Lazy `.*?lit2(.*?)lit3` with full backtracking: number of characters
consumed from the text, trying shorter skips for the first `.*?` first and,
within each, the least viable inner skip. -/
def lazySeek2 (lit2 lit3 : List Char) : List Char → Option ℕ
  | [] =>
    if lit2.isPrefixOf ([] : List Char) then
      match lazySeek lit3 (([] : List Char).drop lit2.length) with
      | some b => some (lit2.length + b + lit3.length)
      | none => none
    else none
  | c :: cs =>
    (if lit2.isPrefixOf (c :: cs) then
        match lazySeek lit3 ((c :: cs).drop lit2.length) with
        | some b => some (lit2.length + b + lit3.length)
        | none => none
      else none).orElse
    (fun _ =>
      if isDotChar c then (lazySeek2 lit2 lit3 cs).map (fun n => n + 1) else none)

/-- Lengths of the matches of the global regex `lit1.*?lit2(.*?)lit3`, in
left-to-right non-overlapping order: the behaviour of
`content.match(/lit1.*?lit2(.*?)lit3/g)` mapped to match lengths. -/
def lazyMatchLens (lit1 lit2 lit3 : List Char) : List Char → List ℕ
  | [] => []
  | c :: cs =>
    if h1 : lit1 ≠ [] ∧ lit1.isPrefixOf (c :: cs) then
      match lazySeek2 lit2 lit3 ((c :: cs).drop lit1.length) with
      | some n =>
        (lit1.length + n) :: lazyMatchLens lit1 lit2 lit3 ((c :: cs).drop (lit1.length + n))
      | none => lazyMatchLens lit1 lit2 lit3 cs
    else
      lazyMatchLens lit1 lit2 lit3 cs
termination_by l => l.length
decreasing_by
  · simp only [List.length_drop, List.length_cons]
    have : lit1.length ≠ 0 := fun hl => h1.1 (List.length_eq_zero.mp hl)
    omega
  · simp
  · simp

/-! ### Data model -/

/-- The `breakdown` object of an analysis result (server.ts:151-157,232-238). -/
structure Breakdown where
  hidden_text : ℕ
  embedded_files : ℕ
  base64_blocks : ℕ
  metadata_score : ℕ
  comments_size : ℕ
deriving DecidableEq

/-- The `details` object of an analysis result (server.ts:159-165,240-246).
The floating-point `entropyScore` is kept outside this record (it is the
only real-valued component); see `docxMaxEntropy` / `pdfMaxEntropy`. -/
structure Details where
  base64BlockCount : ℕ
  embeddedObjectCount : ℕ
  metadataFieldsExtracted : ℕ
  revisionHistoryCount : ℕ
deriving DecidableEq

/-- `min(hiddenBytes / fileSize * 100, 100)` (server.ts:146,227). -/
def hiddenRatioQ (hiddenBytes : ℕ) (fileSize : ℚ) : ℚ :=
  min ((hiddenBytes : ℚ) / fileSize * 100) 100

/-- The object returned by `analyzeDocx` / `analyzePdf` (server.ts:148-166,
229-247), minus the real-valued `entropyScore`. -/
structure AnalysisResult where
  hiddenBytes : ℕ
  hiddenRatio : ℚ
  breakdown : Breakdown
  findings : List String
  details : Details
deriving DecidableEq

/-! ### The DOCX walk (`analyzeDocx`, server.ts:67-167) -/

/-- A ZIP entry as seen by the walk: its path, the uncompressed size from
the ZIP header, and its content decoded as UTF-8 text. -/
structure ZipEntry where
  entryName : String
  headerSize : ℕ
  content : List Char
deriving DecidableEq

/-- `pre` is a prefix of `s` (the semantics of `name.startsWith(pre)`). -/
def strStarts (pre s : String) : Bool := pre.data.isPrefixOf s.data

def isEmbEntry (e : ZipEntry) : Bool :=
  strStarts "word/embeddings/" e.entryName || strStarts "word/media/" e.entryName

def isCommentsEntry (e : ZipEntry) : Bool := e.entryName = "word/comments.xml"

def isDocEntry (e : ZipEntry) : Bool := e.entryName = "word/document.xml"

def isMetaEntry (e : ZipEntry) : Bool :=
  e.entryName = "docProps/core.xml" || e.entryName = "docProps/app.xml"

/-- Finding strings pushed by the scanners (exact source strings). -/
def embStr : String := "⚠ Embedded objects/files found"

def commentsStr : String := "⚠ Significant volume of comments detected"

def vanishStr : String := "⚠ Hidden text (vanish tag) detected"

def whiteStr : String := "⚠ White-colored text detected"

def revStr (n : ℕ) : String :=
  "⚠ Track changes/revisions found (" ++ toString n ++ " edits)"

def b64Str (n : ℕ) : String :=
  "⚠ High entropy encoded blocks detected (" ++ toString n ++ " blocks)"

def excessiveMetaStr : String := "⚠ Metadata anomaly detected (excessive fields)"

def annotsStr : String := "⚠ Annotations/Comments detected"

def invisibleStr : String := "⚠ Invisible text rendering detected"

/-- Match lengths of `/<w:vanish\/>.*?<w:t>(.*?)<\/w:t>/g` (server.ts:112). -/
def vanishLens (content : List Char) : List ℕ :=
  lazyMatchLens "<w:vanish/>".data "<w:t>".data "</w:t>".data content

/-- Match lengths of `/<w:color w:val="FFFFFF".*?<w:t>(.*?)<\/w:t>/g`
(server.ts:118). -/
def whiteLens (content : List Char) : List ℕ :=
  lazyMatchLens "<w:color w:val=\"FFFFFF\"".data "<w:t>".data "</w:t>".data content

/-- `(content.match(/<w:ins/g) || []).length + (content.match(/<w:del/g) || []).length`
(server.ts:105). -/
def revCount (content : List Char) : ℕ :=
  countLit "<w:ins".data content + countLit "<w:del".data content

/-- The mutable accumulators of `analyzeDocx` (server.ts:71-79).  The
`maxEntropy` accumulator is represented by the list of base64 matches seen
so far (`b64matchList`); its real value is `maxEntropyList b64matchList`. -/
structure DocxState where
  hiddenTextSize : ℕ
  embeddedFileSize : ℕ
  commentsSize : ℕ
  b64count : ℕ
  b64size : ℕ
  metadataScore : ℕ
  embeddedObjectCount : ℕ
  revisionHistoryCount : ℕ
  metadataFieldsExtracted : ℕ
  b64matchList : List (List Char)
  findings : List String
deriving DecidableEq

def initDocxState : DocxState :=
  { hiddenTextSize := 0, embeddedFileSize := 0, commentsSize := 0, b64count := 0,
    b64size := 0, metadataScore := 0, embeddedObjectCount := 0,
    revisionHistoryCount := 0, metadataFieldsExtracted := 0,
    b64matchList := [], findings := [] }

/-- Embedded-files block of the walk (server.ts:85-91). -/
def stepEmb (st : DocxState) (e : ZipEntry) : DocxState :=
  if isEmbEntry e then
    { st with
      embeddedFileSize := st.embeddedFileSize + e.headerSize,
      embeddedObjectCount := st.embeddedObjectCount + 1,
      findings := if embStr ∈ st.findings then st.findings else st.findings ++ [embStr] }
  else st

/-- Comments block of the walk (server.ts:94-100). -/
def stepComments (st : DocxState) (e : ZipEntry) : DocxState :=
  if isCommentsEntry e then
    { st with
      commentsSize := st.commentsSize + e.content.length,
      findings :=
        if 500 < e.content.length then st.findings ++ [commentsStr] else st.findings }
  else st

/-- Document-body block of the walk (server.ts:103-129): revisions, hidden
text, white text, encoded blocks. -/
def stepDoc (st : DocxState) (e : ZipEntry) : DocxState :=
  if isDocEntry e then
    let revisions := revCount e.content
    let stA :=
      { st with
        revisionHistoryCount := st.revisionHistoryCount + revisions,
        findings :=
          if 0 < revisions then st.findings ++ [revStr revisions] else st.findings }
    let stB :=
      if vanishLens e.content ≠ [] then
        { stA with
          hiddenTextSize := stA.hiddenTextSize + (vanishLens e.content).sum,
          findings := stA.findings ++ [vanishStr] }
      else stA
    let stC :=
      if whiteLens e.content ≠ [] then
        { stB with
          hiddenTextSize := stB.hiddenTextSize + (whiteLens e.content).sum,
          findings := stB.findings ++ [whiteStr] }
      else stB
    { stC with
      b64count := stC.b64count + (b64Matches e.content).length,
      b64size := stC.b64size + ((b64Matches e.content).map List.length).sum,
      b64matchList := stC.b64matchList ++ b64Matches e.content }
  else st

/-- Metadata block of the walk (server.ts:132-138). -/
def stepMeta (st : DocxState) (e : ZipEntry) : DocxState :=
  if isMetaEntry e then
    { st with
      metadataFieldsExtracted := st.metadataFieldsExtracted + countTags e.content,
      metadataScore := st.metadataScore +
        (if containsSub "creator".data e.content ||
            containsSub "lastModifiedBy".data e.content then 10 else 0) }
  else st

/-- The body of `zipEntries.forEach` (server.ts:81-139): the four `if`
blocks keyed on the entry path, run in source order. -/
def docxStep (st : DocxState) (e : ZipEntry) : DocxState :=
  stepMeta (stepDoc (stepComments (stepEmb st e) e) e) e

/-- `analyzeDocx` (server.ts:67-167): fold the entry walk, then append the
encoded-blocks finding and assemble the result. -/
def analyzeDocx (entries : List ZipEntry) (fileSize : ℚ) : AnalysisResult :=
  let st := entries.foldl docxStep initDocxState
  let findings :=
    if 0 < st.b64count then st.findings ++ [b64Str st.b64count] else st.findings
  let hiddenBytes := st.hiddenTextSize + st.embeddedFileSize + st.b64size + st.commentsSize
  { hiddenBytes := hiddenBytes
    hiddenRatio := hiddenRatioQ hiddenBytes fileSize
    breakdown :=
      { hidden_text := st.hiddenTextSize
        embedded_files := st.embeddedFileSize
        base64_blocks := st.b64size
        metadata_score := st.metadataScore
        comments_size := st.commentsSize }
    findings := findings
    details :=
      { base64BlockCount := st.b64count
        embeddedObjectCount := st.embeddedObjectCount
        metadataFieldsExtracted := st.metadataFieldsExtracted
        revisionHistoryCount := st.revisionHistoryCount } }

/-- The real-valued `entropyScore` of the DOCX scan: maximum entropy over
all base64 matches collected from document-body parts (server.ts:124-128,160). -/
noncomputable def docxMaxEntropy (entries : List ZipEntry) : ℝ :=
  maxEntropyList ((entries.foldl docxStep initDocxState).b64matchList)

/-! ### The PDF scan (`analyzePdf`, server.ts:170-248) -/

/-- The part of the external pdf-parse output the scan consumes: the number
of keys of `data.info` and the truthiness of `data.info.Creator || data.info.Producer`. -/
structure PdfInfo where
  numKeys : ℕ
  creatorOrProducer : Bool
deriving DecidableEq

/-- `analyzePdf` (server.ts:170-248).  `raw` is the byte buffer read as a
one-character-per-byte string, `text` the externally extracted text layer. -/
def analyzePdf (raw text : List Char) (info : PdfInfo) (fileSize : ℚ) : AnalysisResult :=
  let b64count := (b64Matches text).length
  let b64size := ((b64Matches text).map List.length).sum
  let findings0 : List String := if 0 < b64count then [b64Str b64count] else []
  let metadataScore :=
    (if info.creatorOrProducer then 10 else 0) + (if 10 < info.numKeys then 20 else 0)
  let findings1 := findings0 ++ (if 10 < info.numKeys then [excessiveMetaStr] else [])
  let embeddedObjectCount := countEmbedMarkers raw
  let embeddedFileSize := embeddedObjectCount * 1024
  let findings2 := findings1 ++ (if 0 < embeddedObjectCount then [embStr] else [])
  let annotsCount := countLit "/Annots".data raw
  let commentsSize := annotsCount * 256
  let findings3 := findings2 ++ (if 0 < annotsCount then [annotsStr] else [])
  let trCount := countLit "3 Tr".data raw
  let hiddenTextSize := trCount * 50
  let findings4 := findings3 ++ (if 0 < trCount then [invisibleStr] else [])
  let hiddenBytes := hiddenTextSize + embeddedFileSize + b64size + commentsSize
  { hiddenBytes := hiddenBytes
    hiddenRatio := hiddenRatioQ hiddenBytes fileSize
    breakdown :=
      { hidden_text := hiddenTextSize
        embedded_files := embeddedFileSize
        base64_blocks := b64size
        metadata_score := metadataScore
        comments_size := commentsSize }
    findings := findings4
    details :=
      { base64BlockCount := b64count
        embeddedObjectCount := embeddedObjectCount
        metadataFieldsExtracted := info.numKeys
        revisionHistoryCount := 0 } }

/-- The real-valued `entropyScore` of the PDF scan (server.ts:188,241). -/
noncomputable def pdfMaxEntropy (text : List Char) : ℝ :=
  findBase64BlocksMaxEntropy text

/-! ### The fallback risk scorer and oracle handling (server.ts:300-347) -/

/-- The verdict object (`aiResult`). -/
structure RiskVerdict where
  riskScore : ℚ
  riskLevel : String
  confidence : ℚ
  verdict : String
deriving DecidableEq

/-- `Number.prototype.toFixed(1)`: one fractional digit, ties rounded to the
larger candidate. -/
def toFixed1 (q : ℚ) : String :=
  let n : ℤ := (q * 10 + 1 / 2).floor
  let sign := if n < 0 then "-" else ""
  sign ++ toString (n.natAbs / 10) ++ "." ++ toString (n.natAbs % 10)

/-- The fallback heuristic scoring block (server.ts:330-346), run in the
`catch` of the oracle call.  `entropyScore` is
`parseFloat(details.entropyScore)`, `metadataScore` is `breakdown.metadata_score`. -/
def fallbackVerdict (hiddenRatio entropyScore : ℚ) (metadataScore : ℕ)
    (embeddedObjectCount : ℕ) (findings : List String) : RiskVerdict :=
  let riskScore0 :=
    hiddenRatio * 2 + (if 0 < embeddedObjectCount then (1 : ℚ) else 0) * 20 +
      entropyScore * 2 + (metadataScore : ℚ) * (1 / 10)
  let riskScore1 :=
    if 0 < findings.length ∧ riskScore0 < 10 then riskScore0 + 15 else riskScore0
  let riskScore := min (max riskScore1 0) 100
  let riskLevel :=
    if 70 ≤ riskScore then "HIGH" else if 30 ≤ riskScore then "MEDIUM" else "LOW"
  let confidence : ℚ := min (80 + (findings.length : ℚ) * 5) 99
  let verdict :=
    if riskLevel = "HIGH" then
      "The document contains a significant volume of concealed data representing " ++
        toFixed1 hiddenRatio ++
        "% of total file size. Embedded binary objects and high-entropy encoded segments strongly indicate potential covert data transmission. Manual forensic review recommended."
    else if riskLevel = "MEDIUM" then
      "The document contains moderate indicators of hidden data (" ++
        toFixed1 hiddenRatio ++
        "% of total file size). Some anomalies detected such as comments or metadata irregularities. Proceed with caution."
    else
      "The document appears clean with minimal to no hidden data (" ++
        toFixed1 hiddenRatio ++
        "% of total file size). No significant anomalies detected. Standard handling procedures apply."
  { riskScore := riskScore, riskLevel := riskLevel, confidence := confidence,
    verdict := verdict }

/-- The initial `aiResult` object (server.ts:300-305), kept when the oracle
responds with parseable JSON that lacks a `riskScore` field. -/
def defaultAiVerdict : RiskVerdict :=
  { riskScore := 0, riskLevel := "LOW", confidence := 85,
    verdict := "The document appears clean with minimal to no hidden data. No significant anomalies detected. Standard handling procedures apply." }

/-- A successfully parsed oracle JSON response; `riskScore?` is `none` when
the `riskScore` field is absent. -/
structure ParsedOracle where
  riskScoreField : Option ℚ
  riskLevel : String
  confidence : ℚ
  verdict : String
deriving DecidableEq

/-- Outcome of the oracle call: `thrown` covers a rejected API call
(timeout, network, server error) and a `JSON.parse` failure on the response
text — everything the `catch` block at server.ts:328 receives. -/
inductive OracleOutcome where
  | thrown : OracleOutcome
  | responded : ParsedOracle → OracleOutcome
deriving DecidableEq

/-- The verdict-resolution logic of `/api/analyze` (server.ts:300-347):
on `thrown`, the fallback scorer runs; on a parsed response the `aiResult`
is replaced only when `parsed.riskScore !== undefined` (server.ts:327). -/
def resolveVerdict (a : AnalysisResult) (entropyScore : ℚ) (o : OracleOutcome) :
    RiskVerdict :=
  match o with
  | .thrown =>
      fallbackVerdict a.hiddenRatio entropyScore a.breakdown.metadata_score
        a.details.embeddedObjectCount a.findings
  | .responded p =>
      match p.riskScoreField with
      | some v =>
          { riskScore := v, riskLevel := p.riskLevel, confidence := p.confidence,
            verdict := p.verdict }
      | none => defaultAiVerdict

/-! ### Per-entry contributions of the DOCX walk (used to state closed
forms of the fold) -/

def entryHidden (e : ZipEntry) : ℕ :=
  if isDocEntry e then (vanishLens e.content).sum + (whiteLens e.content).sum else 0

def entryEmbSize (e : ZipEntry) : ℕ := if isEmbEntry e then e.headerSize else 0

def entryEmbCount (e : ZipEntry) : ℕ := if isEmbEntry e then 1 else 0

def entryComments (e : ZipEntry) : ℕ := if isCommentsEntry e then e.content.length else 0

def entryRev (e : ZipEntry) : ℕ := if isDocEntry e then revCount e.content else 0

def entryB64Count (e : ZipEntry) : ℕ :=
  if isDocEntry e then (b64Matches e.content).length else 0

def entryB64Size (e : ZipEntry) : ℕ :=
  if isDocEntry e then ((b64Matches e.content).map List.length).sum else 0

def entryMetaFields (e : ZipEntry) : ℕ := if isMetaEntry e then countTags e.content else 0

def entryMetaScore (e : ZipEntry) : ℕ :=
  if isMetaEntry e ∧ (containsSub "creator".data e.content ||
      containsSub "lastModifiedBy".data e.content) then 10 else 0

def entryMatches (e : ZipEntry) : List (List Char) :=
  if isDocEntry e then b64Matches e.content else []

/-- The findings an entry contributes apart from the deduplicated
embedded-objects finding, in push order. -/
def entryFindingsAfterEmb (e : ZipEntry) : List String :=
  (if isCommentsEntry e ∧ 500 < e.content.length then [commentsStr] else []) ++
  (if isDocEntry e ∧ 0 < revCount e.content then [revStr (revCount e.content)] else []) ++
  (if isDocEntry e ∧ vanishLens e.content ≠ [] then [vanishStr] else []) ++
  (if isDocEntry e ∧ whiteLens e.content ≠ [] then [whiteStr] else [])

/-- Characters that can occur in a base64-regex match: the alphabet plus
padding. -/
def isB64OrPad (c : Char) : Bool := isB64Char c || c = '='

/-- The (deduplicated) embedded-objects finding an entry adds, given the
findings accumulated so far. -/
def embIte (st : DocxState) (e : ZipEntry) : List String :=
  if isEmbEntry e ∧ embStr ∉ st.findings then [embStr] else []

/-! ## Theorems -/

/-- Helper: how the `riskLevel` threshold chain of the fallback scorer
relates to the score. -/
theorem riskLevel_threshold_cases (S : ℚ) :
    ((if 70 ≤ S then "HIGH" else if 30 ≤ S then "MEDIUM" else "LOW") = "HIGH" ↔ 70 ≤ S) ∧
    ((if 70 ≤ S then "HIGH" else if 30 ≤ S then "MEDIUM" else "LOW") = "MEDIUM" ↔
      30 ≤ S ∧ S < 70) ∧
    ((if 70 ≤ S then "HIGH" else if 30 ≤ S then "MEDIUM" else "LOW") = "LOW" ↔ S < 30) := by
  by_cases h70 : 70 ≤ S
  · refine ⟨by simp [h70], ?_, ?_⟩
    · rw [if_pos h70]
      constructor
      · intro h; exact absurd h (by decide)
      · rintro ⟨-, hlt⟩; exact absurd h70 (not_le.mpr hlt)
    · rw [if_pos h70]
      constructor
      · intro h; exact absurd h (by decide)
      · intro hlt; linarith
  · by_cases h30 : 30 ≤ S
    · refine ⟨?_, ?_, ?_⟩
      · rw [if_neg h70, if_pos h30]
        constructor
        · intro h; exact absurd h (by decide)
        · intro h; exact absurd h h70
      · rw [if_neg h70, if_pos h30]
        simp [h30, lt_of_not_le h70]
      · rw [if_neg h70, if_pos h30]
        constructor
        · intro h; exact absurd h (by decide)
        · intro hlt; linarith
    · refine ⟨?_, ?_, ?_⟩
      · rw [if_neg h70, if_neg h30]
        constructor
        · intro h; exact absurd h (by decide)
        · intro h; exact absurd h h70
      · rw [if_neg h70, if_neg h30]
        constructor
        · intro h; exact absurd h (by decide)
        · rintro ⟨h, -⟩; exact absurd h h30
      · simp [if_neg h70, if_neg h30, lt_of_not_le h30]

/-- C1: For every AnalysisResult, the Fallback Risk Scorer computes
`riskScore = hiddenRatio*2 + (20 if embeddedObjectCount > 0 else 0) + maxEntropy*2
+ metadataScore*0.1`, then adds 15 if the findings list is non-empty and
`riskScore < 10`, then clamps to `[0,100]`; `riskLevel` is HIGH iff
`riskScore ≥ 70`, MEDIUM iff `30 ≤ riskScore < 70`, else LOW (lower bounds
inclusive); `confidence = min(80 + 5*findingsCount, 99)`. -/
theorem fallback_scorer_spec (hr es : ℚ) (ms eoc : ℕ) (f : List String) :
    (fallbackVerdict hr es ms eoc f).riskScore =
      min (max
        (if f ≠ [] ∧ hr * 2 + (if 0 < eoc then (20 : ℚ) else 0) + es * 2 + (ms : ℚ) / 10 < 10
          then hr * 2 + (if 0 < eoc then (20 : ℚ) else 0) + es * 2 + (ms : ℚ) / 10 + 15
          else hr * 2 + (if 0 < eoc then (20 : ℚ) else 0) + es * 2 + (ms : ℚ) / 10) 0) 100 ∧
    ((fallbackVerdict hr es ms eoc f).riskLevel = "HIGH" ↔
      70 ≤ (fallbackVerdict hr es ms eoc f).riskScore) ∧
    ((fallbackVerdict hr es ms eoc f).riskLevel = "MEDIUM" ↔
      30 ≤ (fallbackVerdict hr es ms eoc f).riskScore ∧
        (fallbackVerdict hr es ms eoc f).riskScore < 70) ∧
    ((fallbackVerdict hr es ms eoc f).riskLevel = "LOW" ↔
      (fallbackVerdict hr es ms eoc f).riskScore < 30) ∧
    (fallbackVerdict hr es ms eoc f).confidence = min (80 + 5 * (f.length : ℚ)) 99 := by
  have hb : hr * 2 + (if 0 < eoc then (1 : ℚ) else 0) * 20 + es * 2 + (ms : ℚ) * (1 / 10) =
      hr * 2 + (if 0 < eoc then (20 : ℚ) else 0) + es * 2 + (ms : ℚ) / 10 := by
    split <;> ring
  refine ⟨?_, (riskLevel_threshold_cases _).1, (riskLevel_threshold_cases _).2.1,
    (riskLevel_threshold_cases _).2.2, ?_⟩
  · show min (max
        (if 0 < f.length ∧
            hr * 2 + (if 0 < eoc then (1 : ℚ) else 0) * 20 + es * 2 + (ms : ℚ) * (1 / 10) < 10
          then hr * 2 + (if 0 < eoc then (1 : ℚ) else 0) * 20 + es * 2 + (ms : ℚ) * (1 / 10) + 15
          else hr * 2 + (if 0 < eoc then (1 : ℚ) else 0) * 20 + es * 2 + (ms : ℚ) * (1 / 10)) 0)
        100 = _
    rw [hb]
    simp only [List.length_pos]
  · show min (80 + (f.length : ℚ) * 5) 99 = _
    rw [mul_comm]

/-- C2: for every scan (DOCX or PDF), `hiddenBytes` equals
`hiddenTextBytes + embeddedFileBytes + encodedBlockBytes + commentsBytes`
(metadata score not included), `hiddenRatio = min(hiddenBytes/fileSize*100, 100)`,
and for every `hiddenBytes ≥ 0` and `byteSize > 0` that ratio lies in `[0,100]`,
including when `hiddenBytes > byteSize`. -/
theorem hidden_bytes_sum_and_ratio_bounds :
    (∀ (entries : List ZipEntry) (fs : ℚ),
      (analyzeDocx entries fs).hiddenBytes =
        (analyzeDocx entries fs).breakdown.hidden_text +
        (analyzeDocx entries fs).breakdown.embedded_files +
        (analyzeDocx entries fs).breakdown.base64_blocks +
        (analyzeDocx entries fs).breakdown.comments_size ∧
      (analyzeDocx entries fs).hiddenRatio =
        hiddenRatioQ (analyzeDocx entries fs).hiddenBytes fs) ∧
    (∀ (raw text : List Char) (info : PdfInfo) (fs : ℚ),
      (analyzePdf raw text info fs).hiddenBytes =
        (analyzePdf raw text info fs).breakdown.hidden_text +
        (analyzePdf raw text info fs).breakdown.embedded_files +
        (analyzePdf raw text info fs).breakdown.base64_blocks +
        (analyzePdf raw text info fs).breakdown.comments_size ∧
      (analyzePdf raw text info fs).hiddenRatio =
        hiddenRatioQ (analyzePdf raw text info fs).hiddenBytes fs) ∧
    (∀ (hb : ℕ) (fs : ℚ), 0 < fs →
      0 ≤ hiddenRatioQ hb fs ∧ hiddenRatioQ hb fs ≤ 100) := by
  refine ⟨fun entries fs => ⟨rfl, rfl⟩, fun raw text info fs => ⟨rfl, rfl⟩,
    fun hb fs hfs => ⟨?_, min_le_right _ _⟩⟩
  refine le_min ?_ (by norm_num)
  have h1 : (0 : ℚ) ≤ (hb : ℚ) / fs := div_nonneg (by positivity) (le_of_lt hfs)
  nlinarith

/-- C2 witness: the bounds at a concrete input. -/
theorem hidden_bytes_sum_and_ratio_bounds_witness :
    (0 : ℚ) < 4 ∧ 0 ≤ hiddenRatioQ 9 4 ∧ hiddenRatioQ 9 4 ≤ 100 :=
  ⟨by norm_num, (hidden_bytes_sum_and_ratio_bounds.2.2 9 4 (by norm_num)).1,
    (hidden_bytes_sum_and_ratio_bounds.2.2 9 4 (by norm_num)).2⟩

/-- C3 counterexample: when the oracle responds with parseable JSON that
lacks the `riskScore` field, the code keeps the hard-coded default
`aiResult` (confidence 85), which differs from what the Fallback Risk
Scorer (server.ts:330-346) produces for the same analysis (confidence 80
for an empty findings list): the claim "the scan invokes the Fallback Risk
Scorer on a response missing riskScore" is false. -/
theorem oracle_missing_riskScore_not_fallback :
    resolveVerdict (analyzeDocx [] 100) 0 (.responded ⟨none, "LOW", 50, "x"⟩) ≠
      fallbackVerdict (analyzeDocx [] 100).hiddenRatio 0
        (analyzeDocx [] 100).breakdown.metadata_score
        (analyzeDocx [] 100).details.embeddedObjectCount
        (analyzeDocx [] 100).findings := by
  intro h
  have h85 := congrArg RiskVerdict.confidence h
  norm_num [resolveVerdict, defaultAiVerdict, fallbackVerdict, analyzeDocx, initDocxState,
    hiddenRatioQ] at h85

/-- C3 (amended): whenever the oracle call or the JSON parse of its
response throws (timeout, network/API error, malformed response), the
Fallback Risk Scorer is invoked; when the response parses but lacks the
`riskScore` field, the fixed default verdict (riskScore 0, LOW,
confidence 85) is kept instead; in every case the failure is not
propagated and the scan completes with a RiskVerdict. -/
theorem oracle_failure_handling (a : AnalysisResult) (es : ℚ) (p : ParsedOracle)
    (hp : p.riskScoreField = none) :
    resolveVerdict a es .thrown =
      fallbackVerdict a.hiddenRatio es a.breakdown.metadata_score
        a.details.embeddedObjectCount a.findings ∧
    resolveVerdict a es (.responded p) = defaultAiVerdict := by
  constructor
  · rfl
  · simp [resolveVerdict, hp]

/-- C3 amended-claim witness. -/
theorem oracle_failure_handling_witness :
    (⟨none, "LOW", 50, "x"⟩ : ParsedOracle).riskScoreField = none ∧
    (resolveVerdict (analyzeDocx [] 100) 0 .thrown =
      fallbackVerdict (analyzeDocx [] 100).hiddenRatio 0
        (analyzeDocx [] 100).breakdown.metadata_score
        (analyzeDocx [] 100).details.embeddedObjectCount
        (analyzeDocx [] 100).findings ∧
    resolveVerdict (analyzeDocx [] 100) 0 (.responded ⟨none, "LOW", 50, "x"⟩) =
      defaultAiVerdict) :=
  ⟨rfl, oracle_failure_handling (analyzeDocx [] 100) 0 ⟨none, "LOW", 50, "x"⟩ rfl⟩

/-- C10: the PDF path never detects or accumulates revision signals — the
`revisionHistoryCount` in a PDF scan's details is always 0. -/
theorem pdf_revision_count_zero (raw text : List Char) (info : PdfInfo) (fs : ℚ) :
    (analyzePdf raw text info fs).details.revisionHistoryCount = 0 := rfl

/-- C6: each embedded-file/name-tree marker occurrence contributes exactly
1024 bytes, each annotation marker 256 bytes, each invisible-text marker
50 bytes; a PDF whose raw bytes are exactly three `/EmbeddedFiles` markers
and nothing else yields `embeddedFileBytes = 3072`,
`embeddedObjectCount = 3` and exactly one "embedded objects found" finding. -/
theorem pdf_fixed_byte_estimates (raw text : List Char) (info : PdfInfo) (fs : ℚ) :
    (analyzePdf raw text info fs).breakdown.embedded_files = countEmbedMarkers raw * 1024 ∧
    (analyzePdf raw text info fs).breakdown.comments_size =
      countLit "/Annots".data raw * 256 ∧
    (analyzePdf raw text info fs).breakdown.hidden_text = countLit "3 Tr".data raw * 50 ∧
    (analyzePdf raw text info fs).details.embeddedObjectCount = countEmbedMarkers raw ∧
    (analyzePdf "/EmbeddedFiles/EmbeddedFiles/EmbeddedFiles".data []
        ⟨0, false⟩ 100).breakdown.embedded_files = 3072 ∧
    (analyzePdf "/EmbeddedFiles/EmbeddedFiles/EmbeddedFiles".data []
        ⟨0, false⟩ 100).details.embeddedObjectCount = 3 ∧
    (analyzePdf "/EmbeddedFiles/EmbeddedFiles/EmbeddedFiles".data []
        ⟨0, false⟩ 100).findings = [embStr] := by
  have h3 : countEmbedMarkers "/EmbeddedFiles/EmbeddedFiles/EmbeddedFiles".data = 3 := by
    simp [countEmbedMarkers]
  have hb64 : b64Matches ([] : List Char) = [] := by simp [b64Matches]
  have hannots : countLit "/Annots".data "/EmbeddedFiles/EmbeddedFiles/EmbeddedFiles".data
      = 0 := by
    simp [countLit]
  have htr : countLit "3 Tr".data "/EmbeddedFiles/EmbeddedFiles/EmbeddedFiles".data = 0 := by
    simp [countLit]
  refine ⟨rfl, rfl, rfl, rfl, ?_, h3, ?_⟩
  · show countEmbedMarkers "/EmbeddedFiles/EmbeddedFiles/EmbeddedFiles".data * 1024 = 3072
    rw [h3]
  · show (if 0 < (b64Matches ([] : List Char)).length then
        [b64Str (b64Matches ([] : List Char)).length] else []) ++
        (if (10 : ℕ) < 0 then [excessiveMetaStr] else []) ++
        (if 0 < countEmbedMarkers "/EmbeddedFiles/EmbeddedFiles/EmbeddedFiles".data
          then [embStr] else []) ++
        (if 0 < countLit "/Annots".data "/EmbeddedFiles/EmbeddedFiles/EmbeddedFiles".data
          then [annotsStr] else []) ++
        (if 0 < countLit "3 Tr".data "/EmbeddedFiles/EmbeddedFiles/EmbeddedFiles".data
          then [invisibleStr] else []) = [embStr]
    rw [hb64, h3, hannots, htr]
    simp

/-! ### Finding-string disequalities -/

theorem commentsStr_ne_embStr : commentsStr ≠ embStr := by decide

theorem vanishStr_ne_embStr : vanishStr ≠ embStr := by decide

theorem whiteStr_ne_embStr : whiteStr ≠ embStr := by decide

theorem revStr_ne_embStr (n : ℕ) : revStr n ≠ embStr := by
  intro h
  have hlen := congrArg String.length h
  rw [revStr, String.length_append, String.length_append] at hlen
  have h1 : ("⚠ Track changes/revisions found (" : String).length = 33 := by decide
  have h2 : (" edits)" : String).length = 7 := by decide
  have h3 : embStr.length = 30 := by decide
  omega

theorem b64Str_ne_embStr (n : ℕ) : b64Str n ≠ embStr := by
  intro h
  have hlen := congrArg String.length h
  rw [b64Str, String.length_append, String.length_append] at hlen
  have h1 : ("⚠ High entropy encoded blocks detected (" : String).length = 40 := by decide
  have h2 : (" blocks)" : String).length = 8 := by decide
  have h3 : embStr.length = 30 := by decide
  omega

theorem embStr_notin_entryFindingsAfterEmb (e : ZipEntry) :
    embStr ∉ entryFindingsAfterEmb e := by
  intro h
  rw [entryFindingsAfterEmb] at h
  simp only [List.mem_append] at h
  rcases h with ((h | h) | h) | h <;> {
    split at h <;> simp only [List.mem_singleton, List.not_mem_nil] at h
    first
    | exact commentsStr_ne_embStr h.symm
    | exact revStr_ne_embStr _ h.symm
    | exact vanishStr_ne_embStr h.symm
    | exact whiteStr_ne_embStr h.symm }

/-! ### Step and fold lemmas for the DOCX walk -/

theorem stepEmb_spec (st : DocxState) (e : ZipEntry) :
    stepEmb st e =
      { st with
        embeddedFileSize := st.embeddedFileSize + entryEmbSize e,
        embeddedObjectCount := st.embeddedObjectCount + entryEmbCount e,
        findings := st.findings ++ embIte st e } := by
  cases st
  rw [stepEmb, embIte, entryEmbSize, entryEmbCount]
  split_ifs <;> simp_all

theorem stepComments_spec (st : DocxState) (e : ZipEntry) :
    stepComments st e =
      { st with
        commentsSize := st.commentsSize + entryComments e,
        findings := st.findings ++
          (if isCommentsEntry e ∧ 500 < e.content.length then [commentsStr] else []) } := by
  cases st
  rw [stepComments, entryComments]
  split_ifs <;> simp_all

theorem stepDoc_spec (st : DocxState) (e : ZipEntry) :
    stepDoc st e =
      { st with
        hiddenTextSize := st.hiddenTextSize + entryHidden e,
        revisionHistoryCount := st.revisionHistoryCount + entryRev e,
        b64count := st.b64count + entryB64Count e,
        b64size := st.b64size + entryB64Size e,
        b64matchList := st.b64matchList ++ entryMatches e,
        findings := st.findings ++
          ((if isDocEntry e ∧ 0 < revCount e.content
              then [revStr (revCount e.content)] else []) ++
            (if isDocEntry e ∧ vanishLens e.content ≠ [] then [vanishStr] else []) ++
            (if isDocEntry e ∧ whiteLens e.content ≠ [] then [whiteStr] else [])) } := by
  cases st
  rw [stepDoc, entryHidden, entryRev, entryB64Count, entryB64Size, entryMatches]
  split_ifs <;> simp_all [Nat.add_assoc, List.append_assoc]

theorem stepMeta_spec (st : DocxState) (e : ZipEntry) :
    stepMeta st e =
      { st with
        metadataFieldsExtracted := st.metadataFieldsExtracted + entryMetaFields e,
        metadataScore := st.metadataScore + entryMetaScore e } := by
  cases st
  rw [stepMeta, entryMetaFields, entryMetaScore]
  split_ifs <;> simp_all

/-- Closed form of one step of the walk. -/
theorem docxStep_spec (st : DocxState) (e : ZipEntry) :
    docxStep st e =
      { hiddenTextSize := st.hiddenTextSize + entryHidden e,
        embeddedFileSize := st.embeddedFileSize + entryEmbSize e,
        commentsSize := st.commentsSize + entryComments e,
        b64count := st.b64count + entryB64Count e,
        b64size := st.b64size + entryB64Size e,
        metadataScore := st.metadataScore + entryMetaScore e,
        embeddedObjectCount := st.embeddedObjectCount + entryEmbCount e,
        revisionHistoryCount := st.revisionHistoryCount + entryRev e,
        metadataFieldsExtracted := st.metadataFieldsExtracted + entryMetaFields e,
        b64matchList := st.b64matchList ++ entryMatches e,
        findings := (st.findings ++ embIte st e) ++ entryFindingsAfterEmb e } := by
  cases st
  rw [docxStep, stepEmb_spec, stepComments_spec, stepDoc_spec, stepMeta_spec,
    entryFindingsAfterEmb]
  simp [embIte, List.append_assoc]

theorem docxStep_findings_proj (st : DocxState) (e : ZipEntry) :
    (docxStep st e).findings = (st.findings ++ embIte st e) ++ entryFindingsAfterEmb e := by
  rw [docxStep_spec]

/-- Membership of the embedded-finding string after one step. -/
theorem embStr_mem_docxStep (st : DocxState) (e : ZipEntry) :
    embStr ∈ (docxStep st e).findings ↔ embStr ∈ st.findings ∨ isEmbEntry e = true := by
  rw [docxStep_findings_proj]
  have hne := embStr_notin_entryFindingsAfterEmb e
  by_cases hA : isEmbEntry e = true <;> by_cases hB : embStr ∈ st.findings <;>
    simp [embIte, hA, hB, hne]

/-- Closed form of the counters of the whole fold. -/
theorem foldl_docxStep_counters (l : List ZipEntry) (st : DocxState) :
    (l.foldl docxStep st).hiddenTextSize = st.hiddenTextSize + (l.map entryHidden).sum ∧
    (l.foldl docxStep st).embeddedFileSize = st.embeddedFileSize + (l.map entryEmbSize).sum ∧
    (l.foldl docxStep st).commentsSize = st.commentsSize + (l.map entryComments).sum ∧
    (l.foldl docxStep st).b64count = st.b64count + (l.map entryB64Count).sum ∧
    (l.foldl docxStep st).b64size = st.b64size + (l.map entryB64Size).sum ∧
    (l.foldl docxStep st).metadataScore = st.metadataScore + (l.map entryMetaScore).sum ∧
    (l.foldl docxStep st).embeddedObjectCount =
      st.embeddedObjectCount + (l.map entryEmbCount).sum ∧
    (l.foldl docxStep st).revisionHistoryCount =
      st.revisionHistoryCount + (l.map entryRev).sum ∧
    (l.foldl docxStep st).metadataFieldsExtracted =
      st.metadataFieldsExtracted + (l.map entryMetaFields).sum := by
  induction l generalizing st with
  | nil => simp
  | cons a l ih =>
    obtain ⟨i1, i2, i3, i4, i5, i6, i7, i8, i9⟩ := ih (docxStep st a)
    rw [List.foldl_cons] at *
    refine ⟨?_, ?_, ?_, ?_, ?_, ?_, ?_, ?_, ?_⟩ <;>
      (first
        | rw [i1] | rw [i2] | rw [i3] | rw [i4] | rw [i5] | rw [i6] | rw [i7]
        | rw [i8] | rw [i9]) <;>
      simp only [docxStep_spec, List.map_cons, List.sum_cons] <;> omega

/-- Closed form of the base64 match list of the whole fold, as a multiset. -/
theorem foldl_docxStep_matches (l : List ZipEntry) (st : DocxState) :
    ((l.foldl docxStep st).b64matchList : Multiset (List Char)) =
      (st.b64matchList : Multiset (List Char)) +
        (l.map fun e => ((entryMatches e : List (List Char)) : Multiset (List Char))).sum := by
  induction l generalizing st with
  | nil => simp
  | cons a l ih =>
    rw [List.foldl_cons, ih, docxStep_spec]
    simp only [List.map_cons, List.sum_cons, ← Multiset.coe_add]
    abel

/-- Closed form of the findings of the whole fold, as a multiset: the
embedded-objects finding appears exactly once iff some embeddings/media
entry exists (and it was not already present), and every other finding is
a per-entry contribution. -/
theorem foldl_docxStep_findings (l : List ZipEntry) (st : DocxState) :
    ((l.foldl docxStep st).findings : Multiset String) =
      (st.findings : Multiset String) +
        (if (∃ e ∈ l, isEmbEntry e = true) ∧ embStr ∉ st.findings then {embStr} else 0) +
        (l.map fun e => ((entryFindingsAfterEmb e : List String) : Multiset String)).sum := by
  induction l generalizing st with
  | nil => simp
  | cons a l ih =>
    rw [List.foldl_cons, ih, docxStep_findings_proj]
    have hmem : embStr ∈ (st.findings ++ embIte st a) ++ entryFindingsAfterEmb a ↔
        embStr ∈ st.findings ∨ isEmbEntry a = true := by
      rw [← docxStep_findings_proj]
      exact embStr_mem_docxStep st a
    simp only [List.map_cons, List.sum_cons]
    have hno := embStr_notin_entryFindingsAfterEmb a
    by_cases hA : isEmbEntry a = true <;> by_cases hB : embStr ∈ st.findings <;>
      by_cases hC : ∃ e ∈ l, isEmbEntry e = true <;>
        simp [embIte, hA, hB, hC, hmem, hno, List.mem_cons, ← Multiset.coe_add,
          ← Multiset.cons_coe, ← Multiset.singleton_add] <;> abel

/-- `maxEntropyList` only depends on the multiset of matches. -/
theorem maxEntropyList_perm {l₁ l₂ : List (List Char)} (h : l₁.Perm l₂) :
    maxEntropyList l₁ = maxEntropyList l₂ := by
  have : ∀ a : ℝ, l₁.foldl (fun a m => max a (calculateEntropy m)) a =
      l₂.foldl (fun a m => max a (calculateEntropy m)) a := by
    induction h with
    | nil => intro a; rfl
    | cons x h ih => intro a; simp only [List.foldl_cons, ih]
    | swap x y l => intro a; simp only [List.foldl_cons]; rw [sup_right_comm]
    | trans h₁ h₂ ih₁ ih₂ => intro a; rw [ih₁, ih₂]
  exact this 0

theorem count_sum_eq_zero {α : Type} [DecidableEq α] (a : α) (L : List (Multiset α))
    (h : ∀ m ∈ L, a ∉ m) : Multiset.count a L.sum = 0 := by
  induction L with
  | nil => simp
  | cons m L ih =>
    rw [List.sum_cons, Multiset.count_add,
      Multiset.count_eq_zero_of_not_mem (h m (List.mem_cons_self m L)),
      ih fun n hn => h n (List.mem_cons_of_mem m hn)]

set_option maxRecDepth 10000 in
/-- C7 counterexample: the DOCX scan is not order-independent as stated —
swapping an embeddings entry with an oversized comments part permutes the
findings list, so the final results are not identical. -/
theorem docx_scan_not_order_independent :
    List.Perm
      [(⟨"word/embeddings/a.bin", 10, []⟩ : ZipEntry),
        ⟨"word/comments.xml", 0, List.replicate 501 'x'⟩]
      [⟨"word/comments.xml", 0, List.replicate 501 'x'⟩,
        ⟨"word/embeddings/a.bin", 10, []⟩] ∧
    analyzeDocx
      [⟨"word/embeddings/a.bin", 10, []⟩,
        ⟨"word/comments.xml", 0, List.replicate 501 'x'⟩] 100 ≠
    analyzeDocx
      [⟨"word/comments.xml", 0, List.replicate 501 'x'⟩,
        ⟨"word/embeddings/a.bin", 10, []⟩] 100 := by
  constructor
  · exact List.Perm.swap _ _ _
  · intro h
    have hf := congrArg AnalysisResult.findings h
    simp [analyzeDocx, docxStep, stepEmb, stepComments, stepDoc, stepMeta,
      initDocxState, isEmbEntry, isCommentsEntry, isDocEntry, isMetaEntry, strStarts,
      List.isPrefixOf, embStr, commentsStr] at hf

/-- C7 (amended): for every DOCX package and permutation of its ZIP
entries, the scan produces the same counters (hiddenBytes, ratio,
breakdown, details) and the same multiset of findings (the findings list
is a permutation — its order follows entry order), and the same maximum
entropy. -/
theorem docx_scan_perm_invariant (fs : ℚ) (l l' : List ZipEntry) (hp : l.Perm l') :
    (analyzeDocx l fs).hiddenBytes = (analyzeDocx l' fs).hiddenBytes ∧
    (analyzeDocx l fs).hiddenRatio = (analyzeDocx l' fs).hiddenRatio ∧
    (analyzeDocx l fs).breakdown = (analyzeDocx l' fs).breakdown ∧
    (analyzeDocx l fs).details = (analyzeDocx l' fs).details ∧
    (analyzeDocx l fs).findings.Perm (analyzeDocx l' fs).findings ∧
    docxMaxEntropy l = docxMaxEntropy l' := by
  obtain ⟨a1, a2, a3, a4, a5, a6, a7, a8, a9⟩ := foldl_docxStep_counters l initDocxState
  obtain ⟨b1, b2, b3, b4, b5, b6, b7, b8, b9⟩ := foldl_docxStep_counters l' initDocxState
  have e1 : (l.foldl docxStep initDocxState).hiddenTextSize =
      (l'.foldl docxStep initDocxState).hiddenTextSize := by
    rw [a1, b1, (hp.map entryHidden).sum_eq]
  have e2 : (l.foldl docxStep initDocxState).embeddedFileSize =
      (l'.foldl docxStep initDocxState).embeddedFileSize := by
    rw [a2, b2, (hp.map entryEmbSize).sum_eq]
  have e3 : (l.foldl docxStep initDocxState).commentsSize =
      (l'.foldl docxStep initDocxState).commentsSize := by
    rw [a3, b3, (hp.map entryComments).sum_eq]
  have e4 : (l.foldl docxStep initDocxState).b64count =
      (l'.foldl docxStep initDocxState).b64count := by
    rw [a4, b4, (hp.map entryB64Count).sum_eq]
  have e5 : (l.foldl docxStep initDocxState).b64size =
      (l'.foldl docxStep initDocxState).b64size := by
    rw [a5, b5, (hp.map entryB64Size).sum_eq]
  have e6 : (l.foldl docxStep initDocxState).metadataScore =
      (l'.foldl docxStep initDocxState).metadataScore := by
    rw [a6, b6, (hp.map entryMetaScore).sum_eq]
  have e7 : (l.foldl docxStep initDocxState).embeddedObjectCount =
      (l'.foldl docxStep initDocxState).embeddedObjectCount := by
    rw [a7, b7, (hp.map entryEmbCount).sum_eq]
  have e8 : (l.foldl docxStep initDocxState).revisionHistoryCount =
      (l'.foldl docxStep initDocxState).revisionHistoryCount := by
    rw [a8, b8, (hp.map entryRev).sum_eq]
  have e9 : (l.foldl docxStep initDocxState).metadataFieldsExtracted =
      (l'.foldl docxStep initDocxState).metadataFieldsExtracted := by
    rw [a9, b9, (hp.map entryMetaFields).sum_eq]
  have hex : (∃ e ∈ l, isEmbEntry e = true) ↔ (∃ e ∈ l', isEmbEntry e = true) :=
    ⟨fun ⟨e, he, hh⟩ => ⟨e, hp.subset he, hh⟩,
      fun ⟨e, he, hh⟩ => ⟨e, hp.symm.subset he, hh⟩⟩
  have ef : ((l.foldl docxStep initDocxState).findings : Multiset String) =
      ((l'.foldl docxStep initDocxState).findings : Multiset String) := by
    rw [foldl_docxStep_findings, foldl_docxStep_findings,
      (hp.map fun e => ((entryFindingsAfterEmb e : List String) : Multiset String)).sum_eq,
      if_congr (and_congr_left fun _ => hex) rfl rfl]
  have efperm : (l.foldl docxStep initDocxState).findings.Perm
      (l'.foldl docxStep initDocxState).findings := Multiset.coe_eq_coe.mp ef
  have em : ((l.foldl docxStep initDocxState).b64matchList : Multiset (List Char)) =
      ((l'.foldl docxStep initDocxState).b64matchList : Multiset (List Char)) := by
    rw [foldl_docxStep_matches, foldl_docxStep_matches,
      (hp.map fun e =>
        ((entryMatches e : List (List Char)) : Multiset (List Char))).sum_eq]
  refine ⟨?_, ?_, ?_, ?_, ?_, ?_⟩
  · show (l.foldl docxStep initDocxState).hiddenTextSize +
        (l.foldl docxStep initDocxState).embeddedFileSize +
        (l.foldl docxStep initDocxState).b64size +
        (l.foldl docxStep initDocxState).commentsSize = _
    rw [e1, e2, e5, e3]
    rfl
  · show hiddenRatioQ ((l.foldl docxStep initDocxState).hiddenTextSize +
        (l.foldl docxStep initDocxState).embeddedFileSize +
        (l.foldl docxStep initDocxState).b64size +
        (l.foldl docxStep initDocxState).commentsSize) fs = _
    rw [e1, e2, e5, e3]
    rfl
  · show Breakdown.mk (l.foldl docxStep initDocxState).hiddenTextSize
        (l.foldl docxStep initDocxState).embeddedFileSize
        (l.foldl docxStep initDocxState).b64size
        (l.foldl docxStep initDocxState).metadataScore
        (l.foldl docxStep initDocxState).commentsSize = _
    rw [e1, e2, e5, e6, e3]
    rfl
  · show Details.mk (l.foldl docxStep initDocxState).b64count
        (l.foldl docxStep initDocxState).embeddedObjectCount
        (l.foldl docxStep initDocxState).metadataFieldsExtracted
        (l.foldl docxStep initDocxState).revisionHistoryCount = _
    rw [e4, e7, e9, e8]
    rfl
  · show (if 0 < (l.foldl docxStep initDocxState).b64count then
        (l.foldl docxStep initDocxState).findings ++
          [b64Str (l.foldl docxStep initDocxState).b64count]
        else (l.foldl docxStep initDocxState).findings).Perm
      (if 0 < (l'.foldl docxStep initDocxState).b64count then
        (l'.foldl docxStep initDocxState).findings ++
          [b64Str (l'.foldl docxStep initDocxState).b64count]
        else (l'.foldl docxStep initDocxState).findings)
    rw [e4]
    by_cases hpos : 0 < (l'.foldl docxStep initDocxState).b64count
    · rw [if_pos hpos, if_pos hpos]
      exact efperm.append_right _
    · rw [if_neg hpos, if_neg hpos]
      exact efperm
  · exact maxEntropyList_perm (Multiset.coe_eq_coe.mp em)

/-- C7 amended-claim witness: the invariance at a concrete permuted pair. -/
theorem docx_scan_perm_invariant_witness :
    (analyzeDocx [(⟨"word/embeddings/a.bin", 10, []⟩ : ZipEntry),
        ⟨"word/comments.xml", 0, List.replicate 501 'x'⟩] 100).hiddenBytes =
      (analyzeDocx [⟨"word/comments.xml", 0, List.replicate 501 'x'⟩,
        ⟨"word/embeddings/a.bin", 10, []⟩] 100).hiddenBytes ∧
    (analyzeDocx [(⟨"word/embeddings/a.bin", 10, []⟩ : ZipEntry),
        ⟨"word/comments.xml", 0, List.replicate 501 'x'⟩] 100).findings.Perm
      (analyzeDocx [⟨"word/comments.xml", 0, List.replicate 501 'x'⟩,
        ⟨"word/embeddings/a.bin", 10, []⟩] 100).findings :=
  ⟨(docx_scan_perm_invariant 100 _ _ (List.Perm.swap _ _ _)).1,
    (docx_scan_perm_invariant 100 _ _ (List.Perm.swap _ _ _)).2.2.2.2.1⟩

/-- C8: the "embedded objects found" finding occurs at most once per DOCX
scan, and a package with no embeddings/media entries yields
`embeddedFileBytes = 0`, `embeddedObjectCount = 0`, and no such finding. -/
theorem docx_embedded_finding_dedup (entries : List ZipEntry) (fs : ℚ) :
    (analyzeDocx entries fs).findings.count embStr ≤ 1 ∧
    ((∀ e ∈ entries, isEmbEntry e = false) →
      (analyzeDocx entries fs).breakdown.embedded_files = 0 ∧
      (analyzeDocx entries fs).details.embeddedObjectCount = 0 ∧
      embStr ∉ (analyzeDocx entries fs).findings) := by
  have hcount : ((entries.foldl docxStep initDocxState).findings).count embStr ≤ 1 := by
    have := foldl_docxStep_findings entries initDocxState
    have hc := congrArg (Multiset.count embStr) this
    rw [Multiset.coe_count] at hc
    rw [hc, Multiset.count_add, Multiset.count_add]
    have hz : Multiset.count embStr
        ((entries.map fun e =>
          ((entryFindingsAfterEmb e : List String) : Multiset String)).sum) = 0 := by
      refine count_sum_eq_zero _ _ fun m hm => ?_
      obtain ⟨e, -, rfl⟩ := List.mem_map.mp hm
      rw [Multiset.mem_coe]
      exact embStr_notin_entryFindingsAfterEmb e
    rw [hz]
    have hinit : Multiset.count embStr ((initDocxState.findings : List String) :
        Multiset String) = 0 := by simp [initDocxState]
    rw [hinit]
    split
    · simp
    · simp
  have hnotin_b64 : ∀ n, embStr ∉ [b64Str n] := by
    intro n hmem
    rw [List.mem_singleton] at hmem
    exact b64Str_ne_embStr n hmem.symm
  constructor
  · show ((if 0 < (entries.foldl docxStep initDocxState).b64count then
        (entries.foldl docxStep initDocxState).findings ++
          [b64Str (entries.foldl docxStep initDocxState).b64count]
        else (entries.foldl docxStep initDocxState).findings)).count embStr ≤ 1
    split
    · rw [List.count_append]
      have : List.count embStr [b64Str (entries.foldl docxStep initDocxState).b64count]
          = 0 := List.count_eq_zero.mpr (hnotin_b64 _)
      omega
    · exact hcount
  · intro hno
    have hz : ∀ (f : ZipEntry → ℕ), (∀ e, isEmbEntry e = false → f e = 0) →
        (entries.map f).sum = 0 := by
      intro f hf
      refine List.sum_eq_zero fun x hx => ?_
      obtain ⟨e, he, rfl⟩ := List.mem_map.mp hx
      exact hf e (hno e he)
    have hsize : (entries.foldl docxStep initDocxState).embeddedFileSize = 0 := by
      rw [(foldl_docxStep_counters entries initDocxState).2.1]
      rw [hz entryEmbSize fun e hfe => by simp [entryEmbSize, hfe]]
      rfl
    have hcnt : (entries.foldl docxStep initDocxState).embeddedObjectCount = 0 := by
      rw [(foldl_docxStep_counters entries initDocxState).2.2.2.2.2.2.1]
      rw [hz entryEmbCount fun e hfe => by simp [entryEmbCount, hfe]]
      rfl
    have hmem0 : embStr ∉ (entries.foldl docxStep initDocxState).findings := by
      have := foldl_docxStep_findings entries initDocxState
      have hne : ¬ (∃ e ∈ entries, isEmbEntry e = true) := by
        rintro ⟨e, he, hh⟩
        rw [hno e he] at hh
        exact Bool.false_ne_true hh
      intro hmem
      rw [← Multiset.mem_coe, this, if_neg (fun hc => hne hc.1)] at hmem
      simp only [initDocxState, Multiset.coe_nil, zero_add, add_zero] at hmem
      have hcz := count_sum_eq_zero embStr
        (entries.map fun e => ((entryFindingsAfterEmb e : List String) : Multiset String))
        (fun m hm => by
          obtain ⟨e, -, rfl⟩ := List.mem_map.mp hm
          rw [Multiset.mem_coe]
          exact embStr_notin_entryFindingsAfterEmb e)
      rw [← Multiset.count_pos, hcz] at hmem
      exact lt_irrefl 0 hmem
    refine ⟨hsize, hcnt, ?_⟩
    show embStr ∉ (if 0 < (entries.foldl docxStep initDocxState).b64count then
        (entries.foldl docxStep initDocxState).findings ++
          [b64Str (entries.foldl docxStep initDocxState).b64count]
        else (entries.foldl docxStep initDocxState).findings)
    split
    · rw [List.mem_append]
      rintro (h | h)
      · exact hmem0 h
      · exact hnotin_b64 _ h
    · exact hmem0

/-- C8 witness: the empty package. -/
theorem docx_embedded_finding_dedup_witness :
    (analyzeDocx [] 1).findings.count embStr ≤ 1 ∧
    ((analyzeDocx [] 1).breakdown.embedded_files = 0 ∧
      (analyzeDocx [] 1).details.embeddedObjectCount = 0 ∧
      embStr ∉ (analyzeDocx [] 1).findings) :=
  ⟨(docx_embedded_finding_dedup [] 1).1,
    (docx_embedded_finding_dedup [] 1).2 (by simp)⟩

/-! ### Entropy lemmas (claim C5) -/

theorem sum_count_toFinset (s : List Char) : ∑ c ∈ s.toFinset, s.count c = s.length := by
  have h := Multiset.toFinset_sum_count_eq (s : Multiset Char)
  simpa using h

theorem calculateEntropy_nil : calculateEntropy [] = 0 := by
  simp [calculateEntropy]

theorem calculateEntropy_replicate (n : ℕ) (c : Char) :
    calculateEntropy (List.replicate n c) = 0 := by
  rcases Nat.eq_zero_or_pos n with rfl | hn
  · simp [calculateEntropy]
  · have hne : n ≠ 0 := Nat.pos_iff_ne_zero.mp hn
    rw [calculateEntropy, if_neg (by simpa using hne)]
    have hfin : (List.replicate n c).toFinset = {c} := by
      ext x
      simp [List.mem_replicate, hne]
    rw [hfin, Finset.sum_singleton]
    have hcnt : List.count c (List.replicate n c) = n := by simp
    rw [hcnt, List.length_replicate,
      div_self (by exact_mod_cast hne : (n : ℝ) ≠ 0)]
    simp

theorem calculateEntropy_uniform (s : List Char) (k N : ℕ) (hk : 0 < k) (hN : 0 < N)
    (hcount : ∀ x ∈ s.toFinset, s.count x = k) (hcard : s.toFinset.card = N) :
    calculateEntropy s = Real.logb 2 N := by
  have hlen : s.length = N * k := by
    rw [← sum_count_toFinset s, Finset.sum_congr rfl hcount, Finset.sum_const, hcard,
      smul_eq_mul]
  have hlen0 : s.length ≠ 0 := by
    rw [hlen]
    exact Nat.pos_iff_ne_zero.mp (Nat.mul_pos hN hk)
  have hkR : (k : ℝ) ≠ 0 := Nat.cast_ne_zero.mpr (Nat.pos_iff_ne_zero.mp hk)
  have hNR : (N : ℝ) ≠ 0 := Nat.cast_ne_zero.mpr (Nat.pos_iff_ne_zero.mp hN)
  rw [calculateEntropy, if_neg hlen0]
  have hterm : ∀ x ∈ s.toFinset,
      ((s.count x : ℝ) / s.length) * Real.logb 2 ((s.count x : ℝ) / s.length) =
        (1 / N) * Real.logb 2 (1 / (N : ℝ)) := by
    intro x hx
    rw [hcount x hx, hlen]
    have hq : ((k : ℝ)) / ((N * k : ℕ) : ℝ) = 1 / N := by
      push_cast
      field_simp
      ring
    rw [hq]
  rw [Finset.sum_congr rfl hterm, Finset.sum_const, hcard, nsmul_eq_mul]
  rw [one_div, Real.logb_inv]
  field_simp

/-- C5: the Entropy Estimator is a pure deterministic function returning
standard Shannon entropy in bits per symbol: 0 on the empty string, 0 on
any string of one repeated character, and exactly `log2 N` on any string
over `N` distinct characters with uniform frequency (exact real
arithmetic standing in for floating-point rounding). -/
theorem entropy_estimator_spec (n : ℕ) (c : Char) (s : List Char) (k N : ℕ)
    (hk : 0 < k) (hN : 0 < N) (hcount : ∀ x ∈ s.toFinset, s.count x = k)
    (hcard : s.toFinset.card = N) :
    calculateEntropy [] = 0 ∧
    calculateEntropy (List.replicate n c) = 0 ∧
    calculateEntropy s = Real.logb 2 N :=
  ⟨calculateEntropy_nil, calculateEntropy_replicate n c,
    calculateEntropy_uniform s k N hk hN hcount hcard⟩

/-- C5 witness: the two-symbol uniform string `"ab"` has entropy
`log2 2 = 1`, and the repeated-character and empty cases evaluate to 0. -/
theorem entropy_estimator_spec_witness :
    calculateEntropy [] = 0 ∧
    calculateEntropy (List.replicate 5 'a') = 0 ∧
    calculateEntropy ['a', 'b'] = Real.logb 2 2 :=
  entropy_estimator_spec 5 'a' ['a', 'b'] 1 2 (by decide) (by decide)
    (by decide) (by decide)

/-! ### Run-length lemmas for the base64 scanner (claims C4, C9) -/

theorem runLen_le_length (l : List Char) : runLen l ≤ l.length := by
  induction l with
  | nil => simp [runLen]
  | cons c cs ih =>
    rw [runLen]
    split <;> simp <;> omega

theorem runLen_pos_head (c : Char) (cs : List Char) (h : 0 < runLen (c :: cs)) :
    isB64Char c = true := by
  by_contra hb
  rw [runLen, if_neg (by simpa using hb)] at h
  exact lt_irrefl 0 h

theorem runLen_getElem (l : List Char) (i : ℕ) (h : i < runLen l) :
    ∃ c, l[i]? = some c ∧ isB64Char c = true := by
  induction l generalizing i with
  | nil => simp [runLen] at h
  | cons c cs ih =>
    have hc : isB64Char c = true := runLen_pos_head c cs (by omega)
    rw [runLen, if_pos hc] at h
    cases i with
    | zero => exact ⟨c, by simp, hc⟩
    | succ i =>
      rw [List.getElem?_cons_succ]
      exact ih i (by omega)

theorem runLen_getElem_not (l : List Char) (c : Char) (h : l[runLen l]? = some c) :
    isB64Char c = false := by
  induction l with
  | nil => simp at h
  | cons d ds ih =>
    by_cases hd : isB64Char d
    · rw [runLen, if_pos hd, List.getElem?_cons_succ] at h
      exact ih h
    · rw [runLen, if_neg hd, List.getElem?_cons_zero] at h
      cases h
      simpa using hd
  termination_by l.length

theorem runLen_drop (l : List Char) (j : ℕ) (h : j ≤ runLen l) :
    runLen (List.drop j l) = runLen l - j := by
  induction j generalizing l with
  | zero => simp
  | succ j ih =>
    cases l with
    | nil => simp [runLen] at h
    | cons c cs =>
      have hc : isB64Char c := runLen_pos_head c cs (by omega)
      rw [runLen, if_pos hc] at h ⊢
      rw [List.drop_succ_cons]
      rw [ih cs (by omega)]
      omega

theorem b64Matches_cons_lt (c : Char) (cs : List Char) (h : runLen (c :: cs) < 40) :
    b64Matches (c :: cs) = b64Matches cs := by
  rw [b64Matches, dif_neg (by omega)]

theorem b64Matches_cons_not (c : Char) (cs : List Char) (h : ¬ isB64Char c = true) :
    b64Matches (c :: cs) = b64Matches cs :=
  b64Matches_cons_lt c cs (by rw [runLen, if_neg h]; omega)

theorem b64Matches_run (l : List Char) (h40 : 40 ≤ runLen l) :
    b64Matches l = l.take (b64MatchLen l) :: b64Matches (l.drop (b64MatchLen l)) := by
  cases l with
  | nil => simp [runLen] at h40
  | cons c cs => rw [b64Matches, dif_pos h40]

theorem b64Matches_short (l : List Char) (h : runLen l < 40) :
    b64Matches l = b64Matches (List.drop (runLen l) l) := by
  induction l with
  | nil => simp
  | cons c cs ih =>
    by_cases hc : isB64Char c
    · rw [runLen, if_pos hc] at h ⊢
      rw [b64Matches_cons_lt c cs (by rw [runLen, if_pos hc]; omega)]
      rw [List.drop_succ_cons]
      exact ih (by omega)
    · rw [runLen, if_neg hc, List.drop_zero]

theorem maximalRunLengths_cons_not (c : Char) (cs : List Char) (h : ¬ isB64Char c = true) :
    maximalRunLengths (c :: cs) = maximalRunLengths cs := by
  rw [maximalRunLengths, if_neg h]

theorem maximalRunLengths_run (l : List Char) (h : 0 < runLen l) :
    maximalRunLengths l = runLen l :: maximalRunLengths (List.drop (runLen l) l) := by
  cases l with
  | nil => simp [runLen] at h
  | cons c cs =>
    have hc : isB64Char c := runLen_pos_head c cs h
    rw [maximalRunLengths, if_pos hc, runLen, if_pos hc, List.drop_succ_cons]

/-- The non-qualifying initial run does not change the qualifying count. -/
theorem qualifyingRunCount_short (l : List Char) (h : runLen l < 40) :
    qualifyingRunCount l = qualifyingRunCount (List.drop (runLen l) l) := by
  rcases Nat.eq_zero_or_pos (runLen l) with hz | hpos
  · rw [hz, List.drop_zero]
  · rw [qualifyingRunCount, maximalRunLengths_run l hpos, List.filter_cons,
      if_neg (by simpa using h)]
    rfl

/-- Structure of the head match: the padding either is absent, or consumes
the two or one trailing `=` bytes after the alphabet run. -/
theorem b64MatchLen_cases (l : List Char) :
    (padLen l = 0 ∧ b64MatchLen l = 4 * (runLen l / 4)) ∨
    (runLen l % 4 = 2 ∧ b64MatchLen l = runLen l + 2 ∧
      l[runLen l]? = some '=' ∧ l[runLen l + 1]? = some '=') ∨
    (runLen l % 4 = 3 ∧ b64MatchLen l = runLen l + 1 ∧ l[runLen l]? = some '=') := by
  simp only [padLen, b64MatchLen]
  by_cases h2 : runLen l % 4 = 2
  · rw [if_pos h2]
    by_cases hpad : l[4 * (runLen l / 4) + 2]? = some '=' ∧
        l[4 * (runLen l / 4) + 3]? = some '='
    · rw [if_pos hpad]
      refine Or.inr (Or.inl ⟨h2, ?_, ?_, ?_⟩)
      · omega
      · have he : 4 * (runLen l / 4) + 2 = runLen l := by omega
        rw [← he]
        exact hpad.1
      · have he : 4 * (runLen l / 4) + 3 = runLen l + 1 := by omega
        rw [← he]
        exact hpad.2
    · rw [if_neg hpad]
      exact Or.inl ⟨rfl, by omega⟩
  · rw [if_neg h2]
    by_cases h3 : runLen l % 4 = 3
    · rw [if_pos h3]
      by_cases hpad : l[4 * (runLen l / 4) + 3]? = some '='
      · rw [if_pos hpad]
        refine Or.inr (Or.inr ⟨h3, ?_, ?_⟩)
        · omega
        · have he : 4 * (runLen l / 4) + 3 = runLen l := by omega
          rw [← he]
          exact hpad
      · rw [if_neg hpad]
        exact Or.inl ⟨rfl, by omega⟩
    · rw [if_neg h3]
      exact Or.inl ⟨rfl, by omega⟩

/-- After consuming a match, the scanner state agrees with having skipped
the whole alphabet run (and possible padding). -/
theorem b64_drop_align (l : List Char) (h40 : 40 ≤ runLen l) :
    b64Matches (List.drop (b64MatchLen l) l) = b64Matches (List.drop (runLen l) l) ∧
    qualifyingRunCount (List.drop (b64MatchLen l) l) =
      qualifyingRunCount (List.drop (runLen l) l) := by
  have hrle := runLen_le_length l
  rcases b64MatchLen_cases l with ⟨-, hml⟩ | ⟨h2, hml, hq1, hq2⟩ | ⟨h3, hml, hq1⟩
  · have hle : b64MatchLen l ≤ runLen l := by omega
    have hrd : runLen (List.drop (b64MatchLen l) l) = runLen l - b64MatchLen l :=
      runLen_drop l _ hle
    have hlt : runLen (List.drop (b64MatchLen l) l) < 40 := by omega
    have hx : b64MatchLen l + (runLen l - b64MatchLen l) = runLen l := by omega
    constructor
    · rw [b64Matches_short _ hlt, hrd, List.drop_drop, hx]
    · rw [qualifyingRunCount_short _ hlt, hrd, List.drop_drop, hx]
  · obtain ⟨hlt1, hget1⟩ := List.getElem?_eq_some.mp hq1
    obtain ⟨hlt2, hget2⟩ := List.getElem?_eq_some.mp hq2
    have hd1 : l.drop (runLen l) = '=' :: l.drop (runLen l + 1) := by
      rw [List.drop_eq_getElem_cons hlt1, hget1]
    have hd2 : l.drop (runLen l + 1) = '=' :: l.drop (runLen l + 2) := by
      rw [List.drop_eq_getElem_cons hlt2, hget2]
    have hpad : ¬ isB64Char '=' = true := by decide
    rw [hml]
    constructor
    · rw [hd1, b64Matches_cons_not _ _ hpad, hd2, b64Matches_cons_not _ _ hpad]
    · rw [qualifyingRunCount, qualifyingRunCount, hd1,
        maximalRunLengths_cons_not _ _ hpad, hd2, maximalRunLengths_cons_not _ _ hpad]
  · obtain ⟨hlt1, hget1⟩ := List.getElem?_eq_some.mp hq1
    have hd1 : l.drop (runLen l) = '=' :: l.drop (runLen l + 1) := by
      rw [List.drop_eq_getElem_cons hlt1, hget1]
    have hpad : ¬ isB64Char '=' = true := by decide
    rw [hml]
    constructor
    · rw [hd1, b64Matches_cons_not _ _ hpad]
    · rw [qualifyingRunCount, qualifyingRunCount, hd1,
        maximalRunLengths_cons_not _ _ hpad]

/-- A qualifying initial run contributes exactly one to the count. -/
theorem qualifyingRunCount_run (l : List Char) (h40 : 40 ≤ runLen l) :
    qualifyingRunCount l = qualifyingRunCount (List.drop (runLen l) l) + 1 := by
  rw [qualifyingRunCount, qualifyingRunCount, maximalRunLengths_run l (by omega),
    List.filter_cons, if_pos (by simpa using h40), List.length_cons]

/-- The scanner finds exactly one match per maximal alphabet run of length
at least 40. -/
theorem b64_count_eq_qualifying (l : List Char) :
    (b64Matches l).length = qualifyingRunCount l := by
  induction l using b64Matches.induct with
  | case1 => simp [b64Matches, qualifyingRunCount, maximalRunLengths]
  | case2 c cs h ih =>
    rw [b64Matches_run _ h, List.length_cons, ih, (b64_drop_align (c :: cs) h).2,
      qualifyingRunCount_run _ h]
  | case3 c cs h ih =>
    rw [b64Matches_cons_lt c cs (by omega), ih]
    by_cases hc : isB64Char c
    · have hlt : runLen (c :: cs) < 40 := by omega
      have hcs : runLen cs < 40 := by
        rw [runLen, if_pos hc] at hlt
        omega
      rw [qualifyingRunCount_short cs hcs, qualifyingRunCount_short (c :: cs) hlt]
      rw [runLen, if_pos hc, List.drop_succ_cons]
    · rw [qualifyingRunCount, qualifyingRunCount, maximalRunLengths_cons_not c cs hc]

/-! ### Fold-max lemmas for `maxEntropyList` -/

theorem foldl_max_init_le (l : List (List Char)) :
    ∀ a : ℝ, a ≤ l.foldl (fun x m => max x (calculateEntropy m)) a := by
  induction l with
  | nil => intro a; simp
  | cons m t ih =>
    intro a
    rw [List.foldl_cons]
    exact le_trans (le_max_left a (calculateEntropy m)) (ih _)

theorem le_maxEntropyList (l : List (List Char)) (m : List Char) (hm : m ∈ l) :
    calculateEntropy m ≤ maxEntropyList l := by
  rw [maxEntropyList]
  generalize (0 : ℝ) = a
  induction l generalizing a with
  | nil => simp at hm
  | cons x t ih =>
    rw [List.foldl_cons]
    rcases List.mem_cons.mp hm with rfl | hmem
    · exact le_trans (le_max_right a (calculateEntropy m)) (foldl_max_init_le t _)
    · exact ih hmem _

theorem maxEntropyList_attained (l : List (List Char)) :
    maxEntropyList l = 0 ∨ ∃ m ∈ l, maxEntropyList l = calculateEntropy m := by
  rw [maxEntropyList]
  generalize h0 : (0 : ℝ) = a
  have key : ∀ (t : List (List Char)) (a : ℝ),
      t.foldl (fun x m => max x (calculateEntropy m)) a = a ∨
      ∃ m ∈ t, t.foldl (fun x m => max x (calculateEntropy m)) a = calculateEntropy m := by
    intro t
    induction t with
    | nil => intro a; exact Or.inl rfl
    | cons x u ih =>
      intro a
      rw [List.foldl_cons]
      rcases ih (max a (calculateEntropy x)) with heq | ⟨m, hm, heq⟩
      · rcases max_choice a (calculateEntropy x) with hmax | hmax
        · exact Or.inl (heq.trans hmax)
        · exact Or.inr ⟨x, List.mem_cons_self x u, heq.trans hmax⟩
      · exact Or.inr ⟨m, List.mem_cons_of_mem x hm, heq⟩
  rcases key l a with heq | hex
  · exact Or.inl (h0 ▸ heq)
  · exact Or.inr hex

/-- C4: the Encoded-Block Scanner finds exactly the maximal base64-alphabet
runs of length ≥ 40 (one greedy, non-overlapping, left-to-right match per
such run), returns their count, the total matched size, and the maximum
entropy over the matches; zero qualifying runs yield `{0, 0, 0}` rather
than an error. -/
theorem encoded_block_scanner_spec (s : List Char) :
    findBase64BlocksCount s = qualifyingRunCount s ∧
    (qualifyingRunCount s = 0 →
      findBase64BlocksCount s = 0 ∧ findBase64BlocksSize s = 0 ∧
      findBase64BlocksMaxEntropy s = 0) ∧
    (∀ m ∈ b64Matches s, calculateEntropy m ≤ findBase64BlocksMaxEntropy s) ∧
    (findBase64BlocksMaxEntropy s = 0 ∨
      ∃ m ∈ b64Matches s, findBase64BlocksMaxEntropy s = calculateEntropy m) := by
  refine ⟨b64_count_eq_qualifying s, ?_, ?_, ?_⟩
  · intro hq
    have hnil : b64Matches s = [] := by
      have := b64_count_eq_qualifying s
      rw [hq] at this
      exact List.length_eq_zero.mp this
    refine ⟨?_, ?_, ?_⟩
    · rw [findBase64BlocksCount, hnil]
      rfl
    · rw [findBase64BlocksSize, hnil]
      rfl
    · rw [findBase64BlocksMaxEntropy, hnil]
      rfl
  · intro m hm
    exact le_maxEntropyList _ m hm
  · exact maxEntropyList_attained _

/-- C4 witness: a text with no qualifying run returns `{0, 0, 0}`. -/
theorem encoded_block_scanner_spec_witness :
    qualifyingRunCount "hello world".data = 0 ∧
    findBase64BlocksCount "hello world".data = 0 ∧
    findBase64BlocksSize "hello world".data = 0 ∧
    findBase64BlocksMaxEntropy "hello world".data = 0 := by
  have hq : qualifyingRunCount "hello world".data = 0 := by
    simp [qualifyingRunCount, maximalRunLengths, runLen, isB64Char]
  have h := (encoded_block_scanner_spec "hello world".data).2.1 hq
  exact ⟨hq, h.1, h.2.1, h.2.2⟩

/-! ### Entropy bounds (claim C9) -/

theorem calculateEntropy_nonneg (s : List Char) : 0 ≤ calculateEntropy s := by
  rw [calculateEntropy]
  split
  · exact le_refl 0
  · rename_i hlen
    rw [neg_nonneg]
    refine Finset.sum_nonpos fun c hc => ?_
    have hlenR : (0 : ℝ) < s.length := by
      exact_mod_cast Nat.pos_of_ne_zero hlen
    have hp0 : (0 : ℝ) ≤ (s.count c : ℝ) / s.length :=
      div_nonneg (by positivity) hlenR.le
    have hp1 : (s.count c : ℝ) / s.length ≤ 1 := by
      rw [div_le_one hlenR]
      exact_mod_cast List.count_le_length c s
    exact mul_nonpos_of_nonneg_of_nonpos hp0
      (Real.logb_nonpos (by norm_num) hp0 hp1)

/-- Gibbs bound for a single positive argument. -/
theorem neg_logb_le (x : ℝ) (hx : 0 < x) :
    -(Real.logb 2 x) ≤ (x⁻¹ - 1) / Real.log 2 := by
  rw [Real.logb, ← neg_div, ← Real.log_inv]
  exact (div_le_div_iff_of_pos_right (Real.log_pos (by norm_num))).mpr
    (Real.log_le_sub_one_of_pos (inv_pos.mpr hx))

/-- Shannon entropy is at most the log of the number of distinct symbols. -/
theorem calculateEntropy_le_logb_card (s : List Char) (hs : s ≠ []) :
    calculateEntropy s ≤ Real.logb 2 (s.toFinset.card) := by
  have hlen0 : s.length ≠ 0 := by
    simpa [List.length_eq_zero] using hs
  have hlenR : (0 : ℝ) < s.length := by
    exact_mod_cast Nat.pos_of_ne_zero hlen0
  obtain ⟨c0, hc0⟩ := List.exists_mem_of_ne_nil s hs
  have hN0 : 0 < s.toFinset.card :=
    Finset.card_pos.mpr ⟨c0, List.mem_toFinset.mpr hc0⟩
  have hNR : (0 : ℝ) < (s.toFinset.card : ℝ) := by exact_mod_cast hN0
  have hlog2 : (0 : ℝ) < Real.log 2 := Real.log_pos (by norm_num)
  have hsum1 : ∑ c ∈ s.toFinset, ((s.count c : ℝ) / s.length) = 1 := by
    rw [← Finset.sum_div, div_eq_one_iff_eq (ne_of_gt hlenR)]
    exact_mod_cast congrArg Nat.cast (sum_count_toFinset s)
  rw [calculateEntropy, if_neg hlen0]
  have key : ∀ c ∈ s.toFinset,
      -(((s.count c : ℝ) / s.length) * Real.logb 2 ((s.count c : ℝ) / s.length)) ≤
        ((s.count c : ℝ) / s.length) * Real.logb 2 (s.toFinset.card) +
          (((s.toFinset.card : ℝ))⁻¹ - (s.count c : ℝ) / s.length) / Real.log 2 := by
    intro c hc
    set p : ℝ := (s.count c : ℝ) / s.length with hpdef
    have hcpos : 0 < s.count c := List.count_pos_iff_mem.mpr (List.mem_toFinset.mp hc)
    have hp : 0 < p := div_pos (by exact_mod_cast hcpos) hlenR
    have h1 : -(p * Real.logb 2 p) - p * Real.logb 2 (s.toFinset.card) =
        p * (-(Real.logb 2 (p * s.toFinset.card))) := by
      rw [Real.logb_mul (ne_of_gt hp) (ne_of_gt hNR)]
      ring
    have h2 : p * (-(Real.logb 2 (p * s.toFinset.card))) ≤
        p * (((p * s.toFinset.card)⁻¹ - 1) / Real.log 2) :=
      mul_le_mul_of_nonneg_left (neg_logb_le _ (mul_pos hp hNR)) hp.le
    have h3 : p * (((p * s.toFinset.card)⁻¹ - 1) / Real.log 2) =
        (((s.toFinset.card : ℝ))⁻¹ - p) / Real.log 2 := by
      field_simp
      ring
    linarith
  have hsum := Finset.sum_le_sum key
  have hrhs : ∑ c ∈ s.toFinset,
      (((s.count c : ℝ) / s.length) * Real.logb 2 (s.toFinset.card) +
        (((s.toFinset.card : ℝ))⁻¹ - (s.count c : ℝ) / s.length) / Real.log 2) =
      Real.logb 2 (s.toFinset.card) := by
    rw [Finset.sum_add_distrib, ← Finset.sum_mul, hsum1, one_mul, ← Finset.sum_div,
      Finset.sum_sub_distrib, hsum1, Finset.sum_const, nsmul_eq_mul,
      mul_inv_cancel₀ (ne_of_gt hNR)]
    simp
  rw [hrhs] at hsum
  rw [← Finset.sum_neg_distrib]
  exact hsum

theorem b64OrPad_toNat_lt (c : Char) (h : isB64OrPad c = true) : c.toNat < 256 := by
  rw [isB64OrPad, Bool.or_eq_true] at h
  rcases h with h | h
  · rw [isB64Char] at h
    simp only [Bool.or_eq_true, Bool.and_eq_true, decide_eq_true_eq] at h
    have hb : ∀ d : Char, c ≤ d → c.toNat ≤ d.toNat := by
      intro d hd
      rw [Char.le_def] at hd
      exact hd
    rcases h with (((⟨-, h2⟩ | ⟨-, h2⟩) | ⟨-, h2⟩) | h) | h
    · have := hb _ h2
      have hz : ('Z' : Char).toNat = 90 := by decide
      omega
    · have := hb _ h2
      have hz : ('z' : Char).toNat = 122 := by decide
      omega
    · have := hb _ h2
      have hz : ('9' : Char).toNat = 57 := by decide
      omega
    · subst h
      decide
    · subst h
      decide
  · rw [decide_eq_true_eq] at h
    subst h
    decide

theorem toFinset_card_le_256 (s : List Char) (h : ∀ c ∈ s, isB64OrPad c = true) :
    s.toFinset.card ≤ 256 := by
  have hle : s.toFinset.card ≤ (Finset.range 256).card := by
    refine Finset.card_le_card_of_injOn (fun c => c.toNat) ?_ ?_
    · intro c hc
      rw [Finset.mem_range]
      exact b64OrPad_toNat_lt c (h c (List.mem_toFinset.mp hc))
    · intro a _ b _ hab
      exact Char.ext (UInt32.toNat.inj hab)
  simpa using hle

/-- Strings over the base64 alphabet plus padding have entropy at most 8
bits per symbol. -/
theorem calculateEntropy_le_eight (s : List Char)
    (h : ∀ c ∈ s, isB64OrPad c = true) : calculateEntropy s ≤ 8 := by
  rcases eq_or_ne s [] with rfl | hs
  · rw [calculateEntropy_nil]
    norm_num
  · obtain ⟨c0, hc0⟩ := List.exists_mem_of_ne_nil s hs
    have hN0 : 0 < s.toFinset.card :=
      Finset.card_pos.mpr ⟨c0, List.mem_toFinset.mpr hc0⟩
    have hcard : (s.toFinset.card : ℝ) ≤ 256 := by
      exact_mod_cast toFinset_card_le_256 s h
    have h1 := calculateEntropy_le_logb_card s hs
    have h2 : Real.logb 2 (s.toFinset.card) ≤ Real.logb 2 256 :=
      Real.logb_le_logb_of_le (by norm_num) (by exact_mod_cast hN0) hcard
    have h3 : Real.logb 2 256 = 8 := by
      rw [show (256 : ℝ) = 2 ^ (8 : ℕ) by norm_num, Real.logb_pow,
        Real.logb_self_eq_one (by norm_num)]
      norm_num
    linarith

/-- Every character of every scanner match is base64-alphabet or `=`. -/
theorem b64Matches_mem_chars (s : List Char) :
    ∀ m ∈ b64Matches s, ∀ c ∈ m, isB64OrPad c = true := by
  induction s using b64Matches.induct with
  | case1 => simp [b64Matches]
  | case2 a cs h ih =>
    intro m hm
    rw [b64Matches_run _ h] at hm
    rcases List.mem_cons.mp hm with rfl | hm
    · intro x hx
      obtain ⟨i, hi, hgx⟩ := List.mem_iff_getElem.mp hx
      have hitake : i < b64MatchLen (a :: cs) := by
        have := hi
        simp only [List.length_take] at this
        omega
      have hil : i < (a :: cs).length := by
        have := hi
        simp only [List.length_take] at this
        omega
      have hget : (a :: cs)[i] = x := by
        rw [← hgx]
        exact (List.getElem_take (h := hi)).symm
      have hrun : i < runLen (a :: cs) → isB64OrPad x = true := by
        intro hir
        obtain ⟨c, hc, hb⟩ := runLen_getElem (a :: cs) i hir
        rw [List.getElem?_eq_getElem hil, hget] at hc
        cases hc
        rw [isB64OrPad, hb]
        rfl
      rcases b64MatchLen_cases (a :: cs) with ⟨-, hml⟩ | ⟨-, hml, hq1, hq2⟩ |
          ⟨-, hml, hq1⟩
      · refine hrun ?_
        have hdiv : 4 * (runLen (a :: cs) / 4) ≤ runLen (a :: cs) := by omega
        omega
      · rcases lt_or_ge i (runLen (a :: cs)) with hir | hir
        · exact hrun hir
        · have : i = runLen (a :: cs) ∨ i = runLen (a :: cs) + 1 := by omega
          rcases this with rfl | rfl
          · rw [List.getElem?_eq_getElem hil, hget] at hq1
            cases hq1
            decide
          · rw [List.getElem?_eq_getElem hil, hget] at hq2
            cases hq2
            decide
      · rcases lt_or_ge i (runLen (a :: cs)) with hir | hir
        · exact hrun hir
        · have : i = runLen (a :: cs) := by omega
          subst this
          rw [List.getElem?_eq_getElem hil, hget] at hq1
          cases hq1
          decide
    · exact ih m hm
  | case3 a cs h ih =>
    intro m hm
    rw [b64Matches_cons_lt _ _ (by omega)] at hm
    exact ih m hm

theorem maxEntropyList_le (l : List (List Char)) (B : ℝ) (hB : 0 ≤ B)
    (h : ∀ m ∈ l, calculateEntropy m ≤ B) : maxEntropyList l ≤ B := by
  rw [maxEntropyList]
  have key : ∀ (t : List (List Char)), (∀ m ∈ t, calculateEntropy m ≤ B) →
      ∀ a : ℝ, a ≤ B → t.foldl (fun x m => max x (calculateEntropy m)) a ≤ B := by
    intro t
    induction t with
    | nil => intro _ a ha; exact ha
    | cons x u ih =>
      intro ht a ha
      rw [List.foldl_cons]
      exact ih (fun m hm => ht m (List.mem_cons_of_mem x hm))
        _ (max_le ha (ht x (List.mem_cons_self x u)))
  exact key l h 0 hB

theorem maxEntropyList_nonneg (l : List (List Char)) : 0 ≤ maxEntropyList l :=
  foldl_max_init_le l 0

theorem mem_list_sum_multiset {α : Type} (a : α) (L : List (Multiset α)) :
    a ∈ L.sum ↔ ∃ m ∈ L, a ∈ m := by
  induction L with
  | nil => simp
  | cons m L ih => simp [Multiset.mem_add, ih]

/-- C9: for every scan the reported maximum entropy lies in `[0, 8]`:
each matched base64 run has at most 65 distinct symbols (alphabet plus
padding, in fact at most 256), so its Shannon entropy never exceeds
8 bits per symbol, and the running maximum starts at 0. -/
theorem max_entropy_in_range (entries : List ZipEntry) (text : List Char) :
    (0 ≤ docxMaxEntropy entries ∧ docxMaxEntropy entries ≤ 8) ∧
    (0 ≤ pdfMaxEntropy text ∧ pdfMaxEntropy text ≤ 8) := by
  constructor
  · constructor
    · exact maxEntropyList_nonneg _
    · refine maxEntropyList_le _ 8 (by norm_num) fun m hm => ?_
      have hmem : m ∈ ((entries.foldl docxStep initDocxState).b64matchList :
          Multiset (List Char)) := by
        rw [Multiset.mem_coe]
        exact hm
      rw [foldl_docxStep_matches] at hmem
      simp only [initDocxState, Multiset.coe_nil, zero_add] at hmem
      rw [mem_list_sum_multiset] at hmem
      obtain ⟨ms, hms, hmm⟩ := hmem
      obtain ⟨e, -, rfl⟩ := List.mem_map.mp hms
      rw [Multiset.mem_coe, entryMatches] at hmm
      split at hmm
      · exact calculateEntropy_le_eight m (b64Matches_mem_chars e.content m hmm)
      · simp at hmm
  · constructor
    · exact maxEntropyList_nonneg _
    · exact maxEntropyList_le _ 8 (by norm_num) fun m hm =>
        calculateEntropy_le_eight m (b64Matches_mem_chars text m hm)

end MetadataForensic
